import Mathlib

/-!
Verification of the line-level diff core of `ddiff` (`main.go`): the
LCS dynamic-programming sequence differ `computeDiff` and the hunk
assembler `createHunksFromEdits` / `createSingleHunk`, plus the
surrounding `generateUnifiedDiff` wrapper.

Line sequences are `List String`.  Go's non-negative `int` indices are
`Nat`; Go's `max(0, a-b)` on indices coincides with truncated `Nat`
subtraction `a - b`.
-/

namespace Ddiff

/-- Edit operation record, mirroring `type Edit struct` in `main.go`:
a kind (`"equal"`, `"delete"`, `"insert"`) and half-open ranges
`[Start1,End1)` into sequence 1 and `[Start2,End2)` into sequence 2. -/
structure Edit where
  type : String
  start1 : Nat
  end1 : Nat
  start2 : Nat
  end2 : Nat
deriving DecidableEq, Repr

/-- One row step of the DP table fill in `computeDiff` (`main.go`):
given the previous row `prev = dp[i]` and the element `x = lines1[i]`,
computes `dp[i+1]` column by column.  `dpRow l2 prev x (j+1)` is
`if x == lines2[j] then prev j + 1 else max (prev (j+1)) (dpRow ... j)`,
exactly the Go recurrence `dp[i][j] = dp[i-1][j-1]+1` /
`max(dp[i-1][j], dp[i][j-1])`; column 0 is 0. -/
def dpRow (l2 : List String) (prev : Nat → Nat) (x : String) : Nat → Nat
  | 0 => 0
  | j+1 => if x = l2.getD j "" then prev j + 1 else max (prev (j+1)) (dpRow l2 prev x j)

/-- The DP table of `computeDiff` (`main.go`), built row by row exactly
as the Go fill loop does: row 0 is all zeros, and row `i+1` is obtained
from row `i` via `dpRow` with `lines1[i]`.  `dp l1 l2 i j` is the Go
`dp[i][j]`. -/
def dp (l1 l2 : List String) : Nat → Nat → Nat
  | 0 => fun _ => 0
  | i+1 => dpRow l2 (dp l1 l2 i) (l1.getD i "")

theorem dp_zero_left (l1 l2 : List String) (j : Nat) : dp l1 l2 0 j = 0 := rfl

theorem dp_zero_right (l1 l2 : List String) (i : Nat) : dp l1 l2 i 0 = 0 := by
  cases i <;> rfl

/-- The Go recurrence for the inner cells of the table. -/
theorem dp_succ_succ (l1 l2 : List String) (i j : Nat) :
    dp l1 l2 (i+1) (j+1) =
      if l1.getD i "" = l2.getD j "" then dp l1 l2 i j + 1
      else max (dp l1 l2 i (j+1)) (dp l1 l2 (i+1) j) := rfl

/-- Length of the maximal run of pairwise-equal lines ending at
positions `i-1`, `j-1`, i.e. the number of iterations of the inner
`for i > 0 && j > 0 && lines1[i-1] == lines2[j-1]` loop of the Equal
branch of `computeDiff`'s backtrack (`main.go`). -/
def matchRun (l1 l2 : List String) : Nat → Nat → Nat
  | i+1, j+1 => if l1.getD i "" = l2.getD j "" then matchRun l1 l2 i j + 1 else 0
  | _, _ => 0

theorem matchRun_le_left (l1 l2 : List String) : ∀ i j, matchRun l1 l2 i j ≤ i := by
  intro i
  induction i with
  | zero => intro j; cases j <;> simp [matchRun]
  | succ n ih =>
    intro j
    cases j with
    | zero => simp [matchRun]
    | succ m =>
      simp only [matchRun]
      split
      · exact Nat.succ_le_succ (ih m)
      · exact Nat.zero_le _

theorem matchRun_le_right (l1 l2 : List String) : ∀ i j, matchRun l1 l2 i j ≤ j := by
  intro i
  induction i with
  | zero => intro j; cases j <;> simp [matchRun]
  | succ n ih =>
    intro j
    cases j with
    | zero => simp [matchRun]
    | succ m =>
      simp only [matchRun]
      split
      · exact Nat.succ_le_succ (ih m)
      · exact Nat.zero_le _

theorem matchRun_pos (l1 l2 : List String) (i j : Nat) (hi : 0 < i) (hj : 0 < j)
    (h : l1.getD (i-1) "" = l2.getD (j-1) "") : 0 < matchRun l1 l2 i j := by
  obtain ⟨i', rfl⟩ := Nat.exists_eq_succ_of_ne_zero (Nat.pos_iff_ne_zero.mp hi)
  obtain ⟨j', rfl⟩ := Nat.exists_eq_succ_of_ne_zero (Nat.pos_iff_ne_zero.mp hj)
  simp only [Nat.succ_sub_one] at h
  simp only [matchRun]
  rw [if_pos h]
  omega

/-- Final value of `i` after the inner Delete loop
`for i > 0 && (j == 0 || dp[i-1][j] >= dp[i][j-1]) { i-- }` of
`computeDiff`'s backtrack (`main.go`), started at the given `i` with
`j` fixed. -/
def delRun (l1 l2 : List String) (j : Nat) : Nat → Nat
  | 0 => 0
  | i+1 => if j = 0 ∨ dp l1 l2 i j ≥ dp l1 l2 (i+1) (j-1) then delRun l1 l2 j i else i+1

theorem delRun_le (l1 l2 : List String) (j : Nat) : ∀ i, delRun l1 l2 j i ≤ i := by
  intro i
  induction i with
  | zero => simp [delRun]
  | succ n ih =>
    simp only [delRun]
    split
    · exact Nat.le_succ_of_le ih
    · exact Nat.le_refl _

theorem delRun_lt (l1 l2 : List String) (i j : Nat) (hi : 0 < i)
    (h : j = 0 ∨ dp l1 l2 (i-1) j ≥ dp l1 l2 i (j-1)) : delRun l1 l2 j i < i := by
  obtain ⟨i', rfl⟩ := Nat.exists_eq_succ_of_ne_zero (Nat.pos_iff_ne_zero.mp hi)
  simp only [Nat.succ_sub_one] at h
  simp only [delRun, if_pos h]
  exact Nat.lt_succ_of_le (delRun_le l1 l2 j i')

/-- Final value of `j` after the inner Insert loop
`for j > 0 && (i == 0 || dp[i-1][j] < dp[i][j-1]) { j-- }` of
`computeDiff`'s backtrack (`main.go`), started at the given `j` with
`i` fixed. -/
def insRun (l1 l2 : List String) (i : Nat) : Nat → Nat
  | 0 => 0
  | j+1 => if i = 0 ∨ dp l1 l2 (i-1) (j+1) < dp l1 l2 i j then insRun l1 l2 i j else j+1

theorem insRun_le (l1 l2 : List String) (i : Nat) : ∀ j, insRun l1 l2 i j ≤ j := by
  intro j
  induction j with
  | zero => simp [insRun]
  | succ n ih =>
    simp only [insRun]
    split
    · exact Nat.le_succ_of_le ih
    · exact Nat.le_refl _

theorem insRun_lt (l1 l2 : List String) (i j : Nat) (hj : 0 < j)
    (h : i = 0 ∨ dp l1 l2 (i-1) j < dp l1 l2 i (j-1)) : insRun l1 l2 i j < j := by
  obtain ⟨j', rfl⟩ := Nat.exists_eq_succ_of_ne_zero (Nat.pos_iff_ne_zero.mp hj)
  simp only [Nat.succ_sub_one] at h
  simp only [insRun, if_pos h]
  exact Nat.lt_succ_of_le (insRun_le l1 l2 i j')

/-- The backtracking loop `for i > 0 || j > 0 { ... }` of `computeDiff`
(`main.go`).  Each iteration extends a maximal Equal, Delete or Insert
run and prepends one edit; prepending in the Go loop corresponds to
appending the current edit after the recursive (earlier-position)
result here.  The loop measure `i + j` strictly decreases. -/
def backtrack (l1 l2 : List String) (i j : Nat) : List Edit :=
  if h0 : i = 0 ∧ j = 0 then []
  else if h1 : 0 < i ∧ 0 < j ∧ l1.getD (i-1) "" = l2.getD (j-1) "" then
    backtrack l1 l2 (i - matchRun l1 l2 i j) (j - matchRun l1 l2 i j) ++
      [⟨"equal", i - matchRun l1 l2 i j, i, j - matchRun l1 l2 i j, j⟩]
  else if h2 : 0 < i ∧ (j = 0 ∨ dp l1 l2 (i-1) j ≥ dp l1 l2 i (j-1)) then
    backtrack l1 l2 (delRun l1 l2 j i) j ++ [⟨"delete", delRun l1 l2 j i, i, j, j⟩]
  else
    backtrack l1 l2 i (insRun l1 l2 i j) ++ [⟨"insert", i, i, insRun l1 l2 i j, j⟩]
termination_by i + j
decreasing_by
  · have hk := matchRun_pos l1 l2 i j h1.1 h1.2.1 h1.2.2
    have hki := matchRun_le_left l1 l2 i j
    have hkj := matchRun_le_right l1 l2 i j
    omega
  · have := delRun_lt l1 l2 i j h2.1 h2.2
    omega
  · have hj : 0 < j := by
      by_cases hi : i = 0
      · subst hi; omega
      · rcases Nat.eq_zero_or_pos j with hj0 | hj0
        · exact absurd ⟨Nat.pos_of_ne_zero hi, Or.inl hj0⟩ h2
        · exact hj0
    have hc : i = 0 ∨ dp l1 l2 (i-1) j < dp l1 l2 i (j-1) := by
      by_cases hi : i = 0
      · exact Or.inl hi
      · right
        rcases Nat.lt_or_ge (dp l1 l2 (i-1) j) (dp l1 l2 i (j-1)) with h | h
        · exact h
        · exact absurd ⟨Nat.pos_of_ne_zero hi, Or.inr h⟩ h2
    have := insRun_lt l1 l2 i j hj hc
    omega

theorem insRun_lt_of_conds (l1 l2 : List String) (i j : Nat) (h0 : ¬(i = 0 ∧ j = 0))
    (h2 : ¬(0 < i ∧ (j = 0 ∨ dp l1 l2 (i-1) j ≥ dp l1 l2 i (j-1)))) :
    insRun l1 l2 i j < j := by
  have hj : 0 < j := by
    by_cases hi : i = 0
    · subst hi; omega
    · rcases Nat.eq_zero_or_pos j with hj0 | hj0
      · exact absurd ⟨Nat.pos_of_ne_zero hi, Or.inl hj0⟩ h2
      · exact hj0
  have hc : i = 0 ∨ dp l1 l2 (i-1) j < dp l1 l2 i (j-1) := by
    by_cases hi : i = 0
    · exact Or.inl hi
    · right
      rcases Nat.lt_or_ge (dp l1 l2 (i-1) j) (dp l1 l2 i (j-1)) with h | h
      · exact h
      · exact absurd ⟨Nat.pos_of_ne_zero hi, Or.inr h⟩ h2
  exact insRun_lt l1 l2 i j hj hc

/-- The sequence differ `computeDiff(lines1, lines2)` of `main.go`:
fill the DP table (here the recursively defined `dp`) and backtrack
from `(n, m)`. -/
def computeDiff (lines1 lines2 : List String) : List Edit :=
  backtrack lines1 lines2 lines1.length lines2.length

/-- Hunk header line, `fmt.Sprintf("@@ -%d,%d +%d,%d @@", ...)` in
`createSingleHunk` (`main.go`). -/
def mkHunkHeader (s1 l1 s2 l2 : Nat) : String :=
  "@@ -" ++ toString s1 ++ "," ++ toString l1 ++ " +" ++ toString s2 ++ "," ++ toString l2 ++ " @@"

/-- Lines emitted for one edit by the `switch edit.Type` loop of
`createSingleHunk` (`main.go`): Equal lines space-prefixed from
sequence 1, Delete lines minus-prefixed from sequence 1, Insert lines
plus-prefixed from sequence 2; any other tag emits nothing (the Go
switch has no default case). -/
def renderEdit (lines1 lines2 : List String) (e : Edit) : List String :=
  if e.type = "equal" then
    (List.range' e.start1 (e.end1 - e.start1)).map (fun i => " " ++ lines1.getD i "")
  else if e.type = "delete" then
    (List.range' e.start1 (e.end1 - e.start1)).map (fun i => "-" ++ lines1.getD i "")
  else if e.type = "insert" then
    (List.range' e.start2 (e.end2 - e.start2)).map (fun i => "+" ++ lines2.getD i "")
  else []

/-- `createSingleHunk(lines1, lines2, edits, context)` of `main.go`:
span `[start1,end1) × [start2,end2)` from the first edit's starts and
the last edit's ends, extended by `context` and clipped to the
sequence bounds (Go's `max(0, start-context)` is `Nat` subtraction,
`min(len(lines), end+context)` is `min`), then the header line, the
leading context lines, the per-edit lines, and the trailing context
lines. -/
def createSingleHunk (lines1 lines2 : List String) (edits : List Edit) (context : Nat) :
    List String :=
  match edits with
  | [] => []
  | e0 :: rest =>
    let elast := (e0 :: rest).getLastD e0
    let start1 := e0.start1
    let end1 := elast.end1
    let start2 := e0.start2
    let end2 := elast.end2
    let contextStart1 := start1 - context
    let contextEnd1 := min lines1.length (end1 + context)
    let contextStart2 := start2 - context
    let contextEnd2 := min lines2.length (end2 + context)
    mkHunkHeader (contextStart1 + 1) (contextEnd1 - contextStart1)
        (contextStart2 + 1) (contextEnd2 - contextStart2)
      :: (((List.range' contextStart1 (start1 - contextStart1)).map
            (fun i => " " ++ lines1.getD i ""))
          ++ (e0 :: rest).flatMap (renderEdit lines1 lines2)
          ++ ((List.range' end1 (contextEnd1 - end1)).map
            (fun i => " " ++ lines1.getD i "")))

/-- The `edits[i].Type == "equal"` test of `createHunksFromEdits`
(`main.go`). -/
def isEqualEdit (e : Edit) : Bool :=
  e.type == "equal"

/-- The accumulation condition of the inner loop of
`createHunksFromEdits` (`main.go`):
`edits[i].Type != "equal" || (edits[i].End1-edits[i].Start1) < context*2`. -/
def hunkPred (context : Nat) (e : Edit) : Bool :=
  !(e.type == "equal") || decide (e.end1 - e.start1 < context * 2)

/-- `createHunksFromEdits(lines1, lines2, edits, context)` of
`main.go`: skip Equal edits, then accumulate a group while
`hunkPred` holds (changes, and Equal runs shorter than `2*context`),
emit the group's hunk if non-empty, and continue after the group.
The Go outer loop advances `i` past the skipped Equal edits and the
accumulated group each round; here the skipped Equal edits are
consumed one at a time and the group via `takeWhile`/`dropWhile`. -/
def createHunksFromEdits (lines1 lines2 : List String) (edits : List Edit) (context : Nat) :
    List (List String) :=
  match edits with
  | [] => []
  | e :: es =>
    if he : isEqualEdit e then createHunksFromEdits lines1 lines2 es context
    else
      let grp := (e :: es).takeWhile (hunkPred context)
      let after := (e :: es).dropWhile (hunkPred context)
      let hunk := createSingleHunk lines1 lines2 grp context
      (if hunk.isEmpty then [] else [hunk]) ++ createHunksFromEdits lines1 lines2 after context
termination_by edits.length
decreasing_by
  · simp
  · have hpe : hunkPred context e0 = true := by
      simp only [hunkPred, Bool.or_eq_true, Bool.not_eq_true']
      exact Or.inl (by simpa [isEqualEdit] using he)
    simp only [List.dropWhile_cons, hpe, if_true]
    have h3 : (List.dropWhile (hunkPred context) rest).length ≤ rest.length :=
      (List.dropWhile_sublist (hunkPred context)).length_le
    simp only [List.length_cons]
    omega

/-- `generateHunks(lines1, lines2, context)` of `main.go`. -/
def generateHunks (lines1 lines2 : List String) (context : Nat) : List (List String) :=
  createHunksFromEdits lines1 lines2 (computeDiff lines1 lines2) context

/-- `generateUnifiedDiff(file1, file2, lines1, lines2, config)` of
`main.go`: the two file header lines followed by the concatenated
hunks; `context` stands for `config.showContext`. -/
def generateUnifiedDiff (file1 file2 : String) (lines1 lines2 : List String)
    (context : Nat) : List String :=
  ("--- " ++ file1) :: ("+++ " ++ file2) :: (generateHunks lines1 lines2 context).flatten



/-- Fuel-indexed computational mirror of `backtrack`, used only to
evaluate concrete instances inside the kernel; `backtrackF_eq` shows it
agrees with `backtrack` whenever the fuel is at least `i + j`. -/
def backtrackF (l1 l2 : List String) : Nat → Nat → Nat → List Edit
  | 0, _, _ => []
  | fuel+1, i, j =>
    if i = 0 ∧ j = 0 then []
    else if 0 < i ∧ 0 < j ∧ l1.getD (i-1) "" = l2.getD (j-1) "" then
      backtrackF l1 l2 fuel (i - matchRun l1 l2 i j) (j - matchRun l1 l2 i j) ++
        [⟨"equal", i - matchRun l1 l2 i j, i, j - matchRun l1 l2 i j, j⟩]
    else if 0 < i ∧ (j = 0 ∨ dp l1 l2 (i-1) j ≥ dp l1 l2 i (j-1)) then
      backtrackF l1 l2 fuel (delRun l1 l2 j i) j ++ [⟨"delete", delRun l1 l2 j i, i, j, j⟩]
    else
      backtrackF l1 l2 fuel i (insRun l1 l2 i j) ++ [⟨"insert", i, i, insRun l1 l2 i j, j⟩]

theorem backtrackF_eq (l1 l2 : List String) :
    ∀ fuel i j, i + j ≤ fuel → backtrackF l1 l2 fuel i j = backtrack l1 l2 i j := by
  intro fuel
  induction fuel with
  | zero =>
    intro i j h
    have hi : i = 0 := by omega
    have hj : j = 0 := by omega
    subst hi; subst hj
    rw [backtrack.eq_def]
    simp [backtrackF]
  | succ f ih =>
    intro i j h
    rw [backtrack.eq_def]
    simp only [backtrackF]
    by_cases h0 : i = 0 ∧ j = 0
    · simp [h0]
    · rw [if_neg h0, dif_neg h0]
      by_cases hc1 : 0 < i ∧ 0 < j ∧ l1.getD (i-1) "" = l2.getD (j-1) ""
      · rw [if_pos hc1, dif_pos hc1]
        congr 1
        apply ih
        have hk := matchRun_pos l1 l2 i j hc1.1 hc1.2.1 hc1.2.2
        have hki := matchRun_le_left l1 l2 i j
        have hkj := matchRun_le_right l1 l2 i j
        omega
      · rw [if_neg hc1, dif_neg hc1]
        by_cases hc2 : 0 < i ∧ (j = 0 ∨ dp l1 l2 (i-1) j ≥ dp l1 l2 i (j-1))
        · rw [if_pos hc2, dif_pos hc2]
          congr 1
          apply ih
          have := delRun_lt l1 l2 i j hc2.1 hc2.2
          omega
        · rw [if_neg hc2, dif_neg hc2]
          congr 1
          apply ih
          have := insRun_lt_of_conds l1 l2 i j h0 hc2
          omega

/-- Evaluation rule for `computeDiff` via the fuel mirror. -/
theorem computeDiff_eval (l1 l2 : List String) :
    computeDiff l1 l2 = backtrackF l1 l2 (l1.length + l2.length) l1.length l2.length :=
  (backtrackF_eq l1 l2 _ _ _ (Nat.le_refl _)).symm

/-- Fuel-indexed computational mirror of `createHunksFromEdits`;
`createHunksF_eq` shows it agrees whenever the fuel is at least the
number of edits. -/
def createHunksF (lines1 lines2 : List String) (context : Nat) :
    Nat → List Edit → List (List String)
  | 0, _ => []
  | _+1, [] => []
  | fuel+1, e :: es =>
    if isEqualEdit e then createHunksF lines1 lines2 context fuel es
    else
      (if (createSingleHunk lines1 lines2 ((e :: es).takeWhile (hunkPred context)) context).isEmpty
        then []
        else [createSingleHunk lines1 lines2 ((e :: es).takeWhile (hunkPred context)) context]) ++
        createHunksF lines1 lines2 context fuel ((e :: es).dropWhile (hunkPred context))

theorem createHunksF_eq (lines1 lines2 : List String) (context : Nat) :
    ∀ fuel edits, edits.length ≤ fuel →
      createHunksF lines1 lines2 context fuel edits =
        createHunksFromEdits lines1 lines2 edits context := by
  intro fuel
  induction fuel with
  | zero =>
    intro edits h
    have : edits = [] := List.length_eq_zero.mp (Nat.le_zero.mp h)
    subst this
    rw [createHunksFromEdits.eq_def]
    simp [createHunksF]
  | succ f ih =>
    intro edits h
    match edits with
    | [] =>
      rw [createHunksFromEdits.eq_def]
      simp [createHunksF]
    | e :: es =>
      rw [createHunksFromEdits.eq_def]
      simp only [createHunksF]
      by_cases he : isEqualEdit e
      · rw [if_pos he, dif_pos he]
        apply ih
        simpa using Nat.le_of_succ_le_succ h
      · rw [if_neg he, dif_neg he]
        congr 1
        apply ih
        have hpe : hunkPred context e = true := by
          simp only [hunkPred, Bool.or_eq_true, Bool.not_eq_true']
          exact Or.inl (by simpa [isEqualEdit] using he)
        rw [List.dropWhile_cons, if_pos hpe]
        have h3 : (List.dropWhile (hunkPred context) es).length ≤ es.length :=
          (List.dropWhile_sublist (hunkPred context)).length_le
        simp only [List.length_cons] at h
        omega

/-- Evaluation rule for `createHunksFromEdits` via the fuel mirror. -/
theorem createHunksFromEdits_eval (lines1 lines2 : List String) (edits : List Edit)
    (context : Nat) :
    createHunksFromEdits lines1 lines2 edits context =
      createHunksF lines1 lines2 context edits.length edits :=
  (createHunksF_eq lines1 lines2 context _ _ (Nat.le_refl _)).symm

/-! ## Reconstruction (spec Totality) -/

/-- Half-open slice `l[a:b]` of a line sequence. -/
def slice (l : List String) (a b : Nat) : List String :=
  (l.drop a).take (b - a)

theorem take_append_slice (l : List String) (a b : Nat) (hab : a ≤ b) :
    l.take a ++ slice l a b = l.take b := by
  unfold slice
  conv_rhs => rw [show b = a + (b - a) from (Nat.add_sub_cancel' hab).symm, List.take_add]

/-- Sequence-1 content selected by the Equal and Delete operations of an
edit list, in order. -/
def recon1 (l1 : List String) (edits : List Edit) : List String :=
  (edits.filter fun e => e.type == "equal" || e.type == "delete").flatMap
    fun e => slice l1 e.start1 e.end1

/-- Sequence-2 content selected by the Equal and Insert operations of an
edit list, in order. -/
def recon2 (l2 : List String) (edits : List Edit) : List String :=
  (edits.filter fun e => e.type == "equal" || e.type == "insert").flatMap
    fun e => slice l2 e.start2 e.end2

theorem recon1_append (l1 : List String) (xs ys : List Edit) :
    recon1 l1 (xs ++ ys) = recon1 l1 xs ++ recon1 l1 ys := by
  simp [recon1, List.filter_append]

theorem recon2_append (l2 : List String) (xs ys : List Edit) :
    recon2 l2 (xs ++ ys) = recon2 l2 xs ++ recon2 l2 ys := by
  simp [recon2, List.filter_append]

theorem backtrack_recon (l1 l2 : List String) : ∀ i j,
    recon1 l1 (backtrack l1 l2 i j) = l1.take i ∧
    recon2 l2 (backtrack l1 l2 i j) = l2.take j := by
  intro i j
  induction i, j using backtrack.induct l1 l2 with
  | case1 i j h0 =>
    rw [backtrack.eq_def, dif_pos h0]
    obtain ⟨rfl, rfl⟩ := h0
    simp [recon1, recon2]
  | case2 i j h0 h1 ih =>
    rw [backtrack.eq_def, dif_neg h0, dif_pos h1]
    have hki := matchRun_le_left l1 l2 i j
    have hkj := matchRun_le_right l1 l2 i j
    rw [recon1_append, recon2_append, ih.1, ih.2]
    constructor
    · have : recon1 l1 [⟨"equal", i - matchRun l1 l2 i j, i, j - matchRun l1 l2 i j, j⟩] =
          slice l1 (i - matchRun l1 l2 i j) i := by
        simp [recon1]
      rw [this]
      exact take_append_slice l1 _ i (by omega)
    · have : recon2 l2 [⟨"equal", i - matchRun l1 l2 i j, i, j - matchRun l1 l2 i j, j⟩] =
          slice l2 (j - matchRun l1 l2 i j) j := by
        simp [recon2]
      rw [this]
      exact take_append_slice l2 _ j (by omega)
  | case3 i j h0 h1 h2 ih =>
    rw [backtrack.eq_def, dif_neg h0, dif_neg h1, dif_pos h2]
    rw [recon1_append, recon2_append, ih.1, ih.2]
    have hd := delRun_le l1 l2 j i
    constructor
    · have : recon1 l1 [⟨"delete", delRun l1 l2 j i, i, j, j⟩] =
          slice l1 (delRun l1 l2 j i) i := by
        simp [recon1]
      rw [this]
      exact take_append_slice l1 _ i (by omega)
    · have : recon2 l2 [⟨"delete", delRun l1 l2 j i, i, j, j⟩] = [] := by
        simp [recon2]
      rw [this, List.append_nil]
  | case4 i j h0 h1 h2 ih =>
    rw [backtrack.eq_def, dif_neg h0, dif_neg h1, dif_neg h2]
    rw [recon1_append, recon2_append, ih.1, ih.2]
    have hins := insRun_le l1 l2 i j
    constructor
    · have : recon1 l1 [⟨"insert", i, i, insRun l1 l2 i j, j⟩] = [] := by
        simp [recon1]
      rw [this, List.append_nil]
    · have : recon2 l2 [⟨"insert", i, i, insRun l1 l2 i j, j⟩] =
          slice l2 (insRun l1 l2 i j) j := by
        simp [recon2]
      rw [this]
      exact take_append_slice l2 _ j (by omega)

/-! ## Well-formedness of the edit list -/

/-- Pointwise matching of the lines covered by a backward match run:
position `i-1-t` of sequence 1 equals position `j-1-t` of sequence 2
for every `t` below the run length. -/
theorem matchRun_matches (l1 l2 : List String) : ∀ i j t, t < matchRun l1 l2 i j →
    l1.getD (i - 1 - t) "" = l2.getD (j - 1 - t) "" := by
  intro i
  induction i with
  | zero =>
    intro j t ht
    exfalso
    cases j <;> simp [matchRun] at ht
  | succ i ih =>
    intro j t ht
    cases j with
    | zero => simp [matchRun] at ht
    | succ j =>
      simp only [matchRun] at ht
      by_cases hx : l1.getD i "" = l2.getD j ""
      · rw [if_pos hx] at ht
        cases t with
        | zero => simpa using hx
        | succ t =>
          have ht' : t < matchRun l1 l2 i j := by omega
          have := ih j t ht'
          have e1 : i + 1 - 1 - (t + 1) = i - 1 - t := by omega
          have e2 : j + 1 - 1 - (t + 1) = j - 1 - t := by omega
          rw [e1, e2]
          exact this
      · rw [if_neg hx] at ht
        omega

/-- Per-edit well-formedness invariant of `computeDiff`'s output: ranges
are ordered and in bounds, every edit consumes at least one line in
total, and the three kinds satisfy the Equal/Delete/Insert range
conditions of the spec (Equal ranges have equal length and pointwise
equal content, Delete consumes only sequence 1, Insert only
sequence 2). -/
def GoodEdit (l1 l2 : List String) (e : Edit) : Prop :=
  e.start1 ≤ e.end1 ∧ e.start2 ≤ e.end2 ∧ e.end1 ≤ l1.length ∧ e.end2 ≤ l2.length ∧
  e.start1 + e.start2 < e.end1 + e.end2 ∧
  ((e.type = "equal" ∧ e.end1 - e.start1 = e.end2 - e.start2 ∧
      ∀ k, k < e.end1 - e.start1 → l1.getD (e.start1 + k) "" = l2.getD (e.start2 + k) "") ∨
   (e.type = "delete" ∧ e.start2 = e.end2) ∨
   (e.type = "insert" ∧ e.start1 = e.end1))

/-- Contiguity of an edit list: starting at position `(a, b)`, each
edit's ranges begin exactly where the previous edit's ranges ended, on
both sides, finishing at `(c, d)`.  This is the "contiguous and
non-overlapping per side" property. -/
def Chain : Nat → Nat → List Edit → Nat → Nat → Prop
  | a, b, [], c, d => a = c ∧ b = d
  | a, b, e :: es, c, d => e.start1 = a ∧ e.start2 = b ∧ Chain e.end1 e.end2 es c d

theorem chain_append_one : ∀ (es : List Edit) (a b c d : Nat) (e : Edit),
    Chain a b es c d → e.start1 = c → e.start2 = d →
    Chain a b (es ++ [e]) e.end1 e.end2 := by
  intro es
  induction es with
  | nil =>
    intro a b c d e hc h1 h2
    obtain ⟨rfl, rfl⟩ := hc
    exact ⟨h1, h2, rfl, rfl⟩
  | cons f fs ih =>
    intro a b c d e hc h1 h2
    exact ⟨hc.1, hc.2.1, ih _ _ _ _ _ hc.2.2 h1 h2⟩

theorem backtrack_good (l1 l2 : List String) : ∀ i j, i ≤ l1.length → j ≤ l2.length →
    Chain 0 0 (backtrack l1 l2 i j) i j ∧
      ∀ e ∈ backtrack l1 l2 i j, GoodEdit l1 l2 e := by
  intro i j
  induction i, j using backtrack.induct l1 l2 with
  | case1 i j h0 =>
    intro _ _
    obtain ⟨rfl, rfl⟩ := h0
    rw [backtrack.eq_def]
    simp only [dif_pos (⟨rfl, rfl⟩ : (0:Nat) = 0 ∧ (0:Nat) = 0)]
    exact ⟨⟨rfl, rfl⟩, by simp⟩
  | case2 i j h0 h1 ih =>
    intro hi hj
    rw [backtrack.eq_def, dif_neg h0, dif_pos h1]
    have hk := matchRun_pos l1 l2 i j h1.1 h1.2.1 h1.2.2
    have hki := matchRun_le_left l1 l2 i j
    have hkj := matchRun_le_right l1 l2 i j
    obtain ⟨ihc, ihg⟩ := ih (by omega) (by omega)
    constructor
    · exact chain_append_one _ _ _ _ _ _ ihc rfl rfl
    · intro e he
      rcases List.mem_append.mp he with he | he
      · exact ihg e he
      · rw [List.mem_singleton.mp he]
        unfold GoodEdit
        dsimp only
        refine ⟨by omega, by omega, by omega, by omega, by omega, Or.inl ⟨rfl, by omega, ?_⟩⟩
        intro t ht
        have hk' : i - (i - matchRun l1 l2 i j) = matchRun l1 l2 i j := by omega
        rw [hk'] at ht
        have := matchRun_matches l1 l2 i j (matchRun l1 l2 i j - 1 - t) (by omega)
        have e1 : i - 1 - (matchRun l1 l2 i j - 1 - t) = i - matchRun l1 l2 i j + t := by omega
        have e2 : j - 1 - (matchRun l1 l2 i j - 1 - t) = j - matchRun l1 l2 i j + t := by omega
        rw [e1, e2] at this
        exact this
  | case3 i j h0 h1 h2 ih =>
    intro hi hj
    rw [backtrack.eq_def, dif_neg h0, dif_neg h1, dif_pos h2]
    have hdl := delRun_le l1 l2 j i
    have hdlt := delRun_lt l1 l2 i j h2.1 h2.2
    obtain ⟨ihc, ihg⟩ := ih (by omega) hj
    constructor
    · exact chain_append_one _ _ _ _ _ _ ihc rfl rfl
    · intro e he
      rcases List.mem_append.mp he with he | he
      · exact ihg e he
      · rw [List.mem_singleton.mp he]
        unfold GoodEdit
        dsimp only
        exact ⟨by omega, by omega, by omega, by omega, by omega, Or.inr (Or.inl ⟨rfl, rfl⟩)⟩
  | case4 i j h0 h1 h2 ih =>
    intro hi hj
    rw [backtrack.eq_def, dif_neg h0, dif_neg h1, dif_neg h2]
    have hil := insRun_le l1 l2 i j
    have hilt := insRun_lt_of_conds l1 l2 i j h0 h2
    obtain ⟨ihc, ihg⟩ := ih hi (by omega)
    constructor
    · exact chain_append_one _ _ _ _ _ _ ihc rfl rfl
    · intro e he
      rcases List.mem_append.mp he with he | he
      · exact ihg e he
      · rw [List.mem_singleton.mp he]
        unfold GoodEdit
        dsimp only
        exact ⟨by omega, by omega, by omega, by omega, by omega, Or.inr (Or.inr ⟨rfl, rfl⟩)⟩

/-- The full edit list of `computeDiff` is a contiguous chain from
`(0,0)` to `(n,m)` of well-formed edits. -/
theorem computeDiff_good (l1 l2 : List String) :
    Chain 0 0 (computeDiff l1 l2) l1.length l2.length ∧
      ∀ e ∈ computeDiff l1 l2, GoodEdit l1 l2 e :=
  backtrack_good l1 l2 l1.length l2.length (Nat.le_refl _) (Nat.le_refl _)

theorem chain_mem_lb : ∀ (g : List Edit) (a b c d : Nat), Chain a b g c d →
    (∀ e ∈ g, e.start1 ≤ e.end1 ∧ e.start2 ≤ e.end2) →
    ∀ q ∈ g, a ≤ q.start1 ∧ b ≤ q.start2 := by
  intro g
  induction g with
  | nil => intro a b c d _ _ q hq; simp at hq
  | cons e es ih =>
    intro a b c d hc hg q hq
    rcases List.mem_cons.mp hq with rfl | hq
    · exact ⟨hc.1.ge, hc.2.1.ge⟩
    · have he := hg e (List.mem_cons_self e es)
      have := ih e.end1 e.end2 c d hc.2.2 (fun x hx => hg x (List.mem_cons_of_mem e hx)) q hq
      constructor
      · calc a = e.start1 := hc.1.symm
          _ ≤ e.end1 := he.1
          _ ≤ q.start1 := this.1
      · calc b = e.start2 := hc.2.1.symm
          _ ≤ e.end2 := he.2
          _ ≤ q.start2 := this.2

theorem chain_pairwise : ∀ (g : List Edit) (a b c d : Nat), Chain a b g c d →
    (∀ e ∈ g, e.start1 ≤ e.end1 ∧ e.start2 ≤ e.end2 ∧
      e.start1 + e.start2 < e.end1 + e.end2) →
    List.Pairwise (fun p q => p.start1 ≤ q.start1 ∧ p.start2 ≤ q.start2 ∧
      p.start1 + p.start2 < q.start1 + q.start2) g := by
  intro g
  induction g with
  | nil => intro _ _ _ _ _ _; exact List.Pairwise.nil
  | cons e es ih =>
    intro a b c d hc hg
    have he := hg e (List.mem_cons_self e es)
    refine List.Pairwise.cons ?_ (ih e.end1 e.end2 c d hc.2.2
      (fun x hx => hg x (List.mem_cons_of_mem e hx)))
    intro q hq
    have hlb := chain_mem_lb es e.end1 e.end2 c d hc.2.2
      (fun x hx => ⟨(hg x (List.mem_cons_of_mem e hx)).1, (hg x (List.mem_cons_of_mem e hx)).2.1⟩)
      q hq
    exact ⟨by omega, by omega, by omega⟩

/-! ## Hunk line counting (spec Hunk header arithmetic) -/

/-- A rendered hunk body line belonging to side 1 of the header
arithmetic: context (space-prefixed) or deletion (minus-prefixed). -/
def side1Line (s : String) : Bool :=
  s.data.head? == some ' ' || s.data.head? == some '-'

/-- A rendered hunk body line belonging to side 2 of the header
arithmetic: context (space-prefixed) or insertion (plus-prefixed). -/
def side2Line (s : String) : Bool :=
  s.data.head? == some ' ' || s.data.head? == some '+'

theorem side1Line_space (x : String) : side1Line (" " ++ x) = true := by
  simp [side1Line, String.data_append]

theorem side1Line_minus (x : String) : side1Line ("-" ++ x) = true := by
  simp [side1Line, String.data_append]

theorem side1Line_plus (x : String) : side1Line ("+" ++ x) = false := by
  simp [side1Line, String.data_append]

theorem side2Line_space (x : String) : side2Line (" " ++ x) = true := by
  simp [side2Line, String.data_append]

theorem side2Line_minus (x : String) : side2Line ("-" ++ x) = false := by
  simp [side2Line, String.data_append]

theorem side2Line_plus (x : String) : side2Line ("+" ++ x) = true := by
  simp [side2Line, String.data_append]

theorem countP_map_range'_all {p : String → Bool} (f : Nat → String) (a n : Nat)
    (h : ∀ i, p (f i) = true) : ((List.range' a n).map f).countP p = n := by
  rw [List.countP_eq_length.mpr]
  · simp
  · intro s hs
    rcases List.mem_map.mp hs with ⟨i, _, rfl⟩
    exact h i

theorem countP_map_range'_none {p : String → Bool} (f : Nat → String) (a n : Nat)
    (h : ∀ i, p (f i) = false) : ((List.range' a n).map f).countP p = 0 := by
  rw [List.countP_eq_zero.mpr]
  intro s hs
  rcases List.mem_map.mp hs with ⟨i, _, rfl⟩
  simp [h i]

/-- The lines rendered for one well-formed edit contribute exactly its
side-1 range length to the context+deletion count and exactly its
side-2 range length to the context+insertion count. -/
theorem renderEdit_count (l1 l2 : List String) (e : Edit) (hg : GoodEdit l1 l2 e) :
    (renderEdit l1 l2 e).countP side1Line = e.end1 - e.start1 ∧
    (renderEdit l1 l2 e).countP side2Line = e.end2 - e.start2 := by
  rcases hg.2.2.2.2.2 with ⟨ht, hlen, _⟩ | ⟨ht, hse⟩ | ⟨ht, hse⟩
  · rw [renderEdit, if_pos ht]
    constructor
    · exact countP_map_range'_all _ _ _ (fun i => side1Line_space _)
    · rw [countP_map_range'_all _ _ _ (fun i => side2Line_space _)]
      exact hlen
  · have hne : e.type ≠ "equal" := by rw [ht]; decide
    rw [renderEdit, if_neg hne, if_pos ht]
    constructor
    · exact countP_map_range'_all _ _ _ (fun i => side1Line_minus _)
    · rw [countP_map_range'_none _ _ _ (fun i => side2Line_minus _)]
      omega
  · have hne : e.type ≠ "equal" := by rw [ht]; decide
    have hnd : e.type ≠ "delete" := by rw [ht]; decide
    rw [renderEdit, if_neg hne, if_neg hnd, if_pos ht]
    constructor
    · rw [countP_map_range'_none _ _ _ (fun i => side1Line_plus _)]
      omega
    · exact countP_map_range'_all _ _ _ (fun i => side2Line_plus _)

theorem chain_split : ∀ (xs ys : List Edit) (a b c d : Nat), Chain a b (xs ++ ys) c d →
    ∃ p q, Chain p q ys c d ∧ Chain a b xs p q := by
  intro xs
  induction xs with
  | nil => intro ys a b c d h; exact ⟨a, b, h, rfl, rfl⟩
  | cons e es ih =>
    intro ys a b c d h
    obtain ⟨p, q, h1, h2⟩ := ih ys e.end1 e.end2 c d h.2.2
    exact ⟨p, q, h1, h.1, h.2.1, h2⟩

theorem chain_last_end : ∀ (rest : List Edit) (e0 : Edit) (a b c d : Nat),
    Chain a b (e0 :: rest) c d →
    ((e0 :: rest).getLastD e0).end1 = c ∧ ((e0 :: rest).getLastD e0).end2 = d := by
  intro rest
  induction rest with
  | nil =>
    intro e0 a b c d h
    simpa [List.getLastD_cons] using ⟨h.2.2.1, h.2.2.2⟩
  | cons f fs ih =>
    intro e0 a b c d h
    have := ih f e0.end1 e0.end2 c d h.2.2
    simpa [List.getLastD_cons] using this

theorem chain_le : ∀ (g : List Edit) (a b c d : Nat), Chain a b g c d →
    (∀ e ∈ g, e.start1 ≤ e.end1 ∧ e.start2 ≤ e.end2) → a ≤ c ∧ b ≤ d := by
  intro g
  induction g with
  | nil =>
    intro a b c d h _
    obtain ⟨rfl, rfl⟩ := h
    exact ⟨Nat.le_refl _, Nat.le_refl _⟩
  | cons e es ih =>
    intro a b c d h hg
    have he := hg e (List.mem_cons_self e es)
    have := ih e.end1 e.end2 c d h.2.2 (fun x hx => hg x (List.mem_cons_of_mem e hx))
    have h1 := h.1
    have h2 := h.2.1
    omega

theorem chain_sum : ∀ (g : List Edit) (a b c d : Nat), Chain a b g c d →
    (∀ e ∈ g, e.start1 ≤ e.end1 ∧ e.start2 ≤ e.end2) →
    ((g.map fun e => e.end1 - e.start1).sum = c - a ∧
     (g.map fun e => e.end2 - e.start2).sum = d - b) := by
  intro g
  induction g with
  | nil =>
    intro a b c d h _
    obtain ⟨rfl, rfl⟩ := h
    simp
  | cons e es ih =>
    intro a b c d h hg
    have he := hg e (List.mem_cons_self e es)
    have hrest := ih e.end1 e.end2 c d h.2.2 (fun x hx => hg x (List.mem_cons_of_mem e hx))
    have hle := chain_le es e.end1 e.end2 c d h.2.2
      (fun x hx => hg x (List.mem_cons_of_mem e hx))
    have h1 := h.1
    have h2 := h.2.1
    simp only [List.map_cons, List.sum_cons]
    omega

theorem chain_end_bounds (l1 l2 : List String) : ∀ (g : List Edit) (a b c d : Nat),
    Chain a b g c d → g ≠ [] → (∀ e ∈ g, GoodEdit l1 l2 e) →
    c ≤ l1.length ∧ d ≤ l2.length := by
  intro g
  induction g with
  | nil => intro a b c d _ hne _; exact absurd rfl hne
  | cons e es ih =>
    intro a b c d h _ hg
    cases es with
    | nil =>
      have he := hg e (List.mem_cons_self e [])
      obtain ⟨-, -, hc⟩ := h
      obtain ⟨rfl, rfl⟩ := hc
      exact ⟨he.2.2.1, he.2.2.2.1⟩
    | cons f fs =>
      exact ih e.end1 e.end2 c d h.2.2 (by simp)
        (fun x hx => hg x (List.mem_cons_of_mem e hx))

/-- The body (all lines after the header) of a hunk produced by
`createSingleHunk` on a non-empty edit group: leading context, rendered
edits, trailing context. -/
def hunkBody (lines1 lines2 : List String) (context : Nat) (e0 : Edit) (rest : List Edit) :
    List String :=
  ((List.range' (e0.start1 - context) (e0.start1 - (e0.start1 - context))).map
      (fun i => " " ++ lines1.getD i ""))
    ++ (e0 :: rest).flatMap (renderEdit lines1 lines2)
    ++ ((List.range' ((e0 :: rest).getLastD e0).end1
          (min lines1.length (((e0 :: rest).getLastD e0).end1 + context) -
            ((e0 :: rest).getLastD e0).end1)).map
      (fun i => " " ++ lines1.getD i ""))

theorem createSingleHunk_cons (lines1 lines2 : List String) (context : Nat) (e0 : Edit)
    (rest : List Edit) :
    createSingleHunk lines1 lines2 (e0 :: rest) context =
      mkHunkHeader (e0.start1 - context + 1)
          (min lines1.length (((e0 :: rest).getLastD e0).end1 + context) -
            (e0.start1 - context))
          (e0.start2 - context + 1)
          (min lines2.length (((e0 :: rest).getLastD e0).end2 + context) -
            (e0.start2 - context))
        :: hunkBody lines1 lines2 context e0 rest := rfl

/-- Counts of a hunk body over a chained group of well-formed edits.
Side 1 telescopes to the clipped side-1 window length unconditionally;
side 2 additionally needs the group's start positions to be balanced
(or both at least `ctx`) and the tail after the group to be balanced at
the sequence ends (or leave at least `ctx` lines on both sides), since
the context lines are taken from sequence 1 on both counts. -/
theorem hunkBody_count (l1 l2 : List String) (ctx : Nat) (e0 : Edit) (rest : List Edit)
    (a b c d : Nat) (hchain : Chain a b (e0 :: rest) c d)
    (hgood : ∀ e ∈ e0 :: rest, GoodEdit l1 l2 e)
    (hleft : a = b ∨ (ctx ≤ a ∧ ctx ≤ b))
    (hright : (c = l1.length ∧ d = l2.length) ∨ (ctx + c ≤ l1.length ∧ ctx + d ≤ l2.length)) :
    (hunkBody l1 l2 ctx e0 rest).countP side1Line =
      min l1.length (((e0 :: rest).getLastD e0).end1 + ctx) - (e0.start1 - ctx) ∧
    (hunkBody l1 l2 ctx e0 rest).countP side2Line =
      min l2.length (((e0 :: rest).getLastD e0).end2 + ctx) - (e0.start2 - ctx) := by
  have ha : e0.start1 = a := hchain.1
  have hb : e0.start2 = b := hchain.2.1
  obtain ⟨hc, hd⟩ := chain_last_end rest e0 a b c d hchain
  have hse : ∀ e ∈ e0 :: rest, e.start1 ≤ e.end1 ∧ e.start2 ≤ e.end2 :=
    fun e he => ⟨(hgood e he).1, (hgood e he).2.1⟩
  have hac := chain_le _ a b c d hchain hse
  have hbounds := chain_end_bounds l1 l2 _ a b c d hchain (by simp) hgood
  have hsum := chain_sum _ a b c d hchain hse
  have hflat1 : ((e0 :: rest).flatMap (renderEdit l1 l2)).countP side1Line = c - a := by
    show (((e0 :: rest).map (renderEdit l1 l2)).flatten).countP side1Line = c - a
    rw [List.countP_flatten, List.map_map]
    have hmap : List.map (List.countP side1Line ∘ renderEdit l1 l2) (e0 :: rest) =
        List.map (fun e => e.end1 - e.start1) (e0 :: rest) :=
      List.map_congr_left (fun e he => (renderEdit_count l1 l2 e (hgood e he)).1)
    rw [hmap]
    exact hsum.1
  have hflat2 : ((e0 :: rest).flatMap (renderEdit l1 l2)).countP side2Line = d - b := by
    show (((e0 :: rest).map (renderEdit l1 l2)).flatten).countP side2Line = d - b
    rw [List.countP_flatten, List.map_map]
    have hmap : List.map (List.countP side2Line ∘ renderEdit l1 l2) (e0 :: rest) =
        List.map (fun e => e.end2 - e.start2) (e0 :: rest) :=
      List.map_congr_left (fun e he => (renderEdit_count l1 l2 e (hgood e he)).2)
    rw [hmap]
    exact hsum.2
  have hctx1 : ∀ p : String → Bool, (∀ x, p (" " ++ x) = true) → ∀ u n,
      ((List.range' u n).map (fun i => " " ++ l1.getD i "")).countP p = n :=
    fun p hp u n => countP_map_range'_all _ u n (fun i => hp (l1.getD i ""))
  constructor
  · unfold hunkBody
    rw [List.countP_append, List.countP_append, hflat1,
      hctx1 side1Line side1Line_space, hctx1 side1Line side1Line_space, ha, hc]
    omega
  · unfold hunkBody
    rw [List.countP_append, List.countP_append, hflat2,
      hctx1 side2Line side2Line_space, hctx1 side2Line side2Line_space, ha, hb, hc, hd]
    omega

theorem dropWhile_head_false {α : Type} (p : α → Bool) :
    ∀ (l : List α) (x : α) (xs : List α), l.dropWhile p = x :: xs → p x = false := by
  intro l
  induction l with
  | nil => intro x xs h; simp at h
  | cons a l ih =>
    intro x xs h
    rw [List.dropWhile_cons] at h
    by_cases hp : p a = true
    · rw [if_pos hp] at h
      exact ih x xs h
    · rw [if_neg hp] at h
      obtain ⟨rfl, rfl⟩ := List.cons.injEq .. ▸ (List.cons.inj h)
      exact Bool.eq_false_iff.mpr hp

/-- Every hunk emitted by `createHunksFromEdits` on a chained list of
well-formed edits (running to the exact sequence ends, and starting
balanced or past the context margin) has the header-arithmetic
property: its header is `mkHunkHeader` of the body's side-1 and side-2
counts. -/
theorem hunk_mem_header (l1 l2 : List String) :
    ∀ (edits : List Edit) (ctx : Nat), ∀ a b : Nat,
      Chain a b edits l1.length l2.length →
      (∀ e ∈ edits, GoodEdit l1 l2 e) →
      (a = b ∨ (ctx ≤ a ∧ ctx ≤ b) ∨
        (∃ e' es', edits = e' :: es' ∧ e'.type = "equal" ∧ ctx * 2 ≤ e'.end1 - e'.start1)) →
      ∀ h ∈ createHunksFromEdits l1 l2 edits ctx,
        ∃ s1 s2 body,
          h = mkHunkHeader s1 (body.countP side1Line) s2 (body.countP side2Line) :: body := by
  intro edits ctx
  induction edits, ctx using createHunksFromEdits.induct l1 l2 with
  | case1 ctx =>
    intro a b _ _ _ h hh
    rw [createHunksFromEdits.eq_def] at hh
    simp at hh
  | case2 ctx e0 rest he ih =>
    intro a b hchain hgood hinv h hh
    have hty : e0.type = "equal" := by simpa [isEqualEdit] using he
    have heq : createHunksFromEdits l1 l2 (e0 :: rest) ctx =
        createHunksFromEdits l1 l2 rest ctx := by
      rw [createHunksFromEdits.eq_def]
      simp [he]
    rw [heq] at hh
    have hg0 := hgood e0 (List.mem_cons_self e0 rest)
    have hlen : e0.end1 - e0.start1 = e0.end2 - e0.start2 := by
      rcases hg0.2.2.2.2.2 with ⟨_, h, _⟩ | ⟨h, _⟩ | ⟨h, _⟩
      · exact h
      · rw [hty] at h; exact absurd h (by decide)
      · rw [hty] at h; exact absurd h (by decide)
    refine ih e0.end1 e0.end2 hchain.2.2
      (fun e hx => hgood e (List.mem_cons_of_mem e0 hx)) ?_ h hh
    have hs1 := hg0.1
    have hs2 := hg0.2.1
    have ha : e0.start1 = a := hchain.1
    have hb : e0.start2 = b := hchain.2.1
    rcases hinv with hab | ⟨h1, h2⟩ | ⟨e', es', heq', hty', hfirm⟩
    · left; omega
    · right; left; omega
    · obtain ⟨rfl, rfl⟩ := List.cons.inj heq'
      right; left
      omega
  | case3 ctx e0 rest he after ih =>
    intro a b hchain hgood hinv h hh
    have hpe : hunkPred ctx e0 = true := by
      simp only [hunkPred, Bool.or_eq_true, Bool.not_eq_true']
      exact Or.inl (by simpa [isEqualEdit] using he)
    have heq : createHunksFromEdits l1 l2 (e0 :: rest) ctx =
        (if (createSingleHunk l1 l2 ((e0 :: rest).takeWhile (hunkPred ctx)) ctx).isEmpty
          then []
          else [createSingleHunk l1 l2 ((e0 :: rest).takeWhile (hunkPred ctx)) ctx]) ++
        createHunksFromEdits l1 l2 ((e0 :: rest).dropWhile (hunkPred ctx)) ctx := by
      rw [createHunksFromEdits.eq_def]
      simp [he]
    have hsplitlist : (e0 :: rest).takeWhile (hunkPred ctx) ++
        (e0 :: rest).dropWhile (hunkPred ctx) = e0 :: rest :=
      List.takeWhile_append_dropWhile (hunkPred ctx) (e0 :: rest)
    have hchain' : Chain a b ((e0 :: rest).takeWhile (hunkPred ctx) ++
        (e0 :: rest).dropWhile (hunkPred ctx)) l1.length l2.length := by
      rw [hsplitlist]; exact hchain
    obtain ⟨p, q, htail, hgrpchain⟩ := chain_split _ _ _ _ _ _ hchain'
    have hgrp : (e0 :: rest).takeWhile (hunkPred ctx) =
        e0 :: rest.takeWhile (hunkPred ctx) := by
      simp [List.takeWhile_cons, hpe]
    have hleft : a = b ∨ (ctx ≤ a ∧ ctx ≤ b) := by
      rcases hinv with hab | ⟨h1, h2⟩ | ⟨e', es', heq', hty', hfirm⟩
      · exact Or.inl hab
      · exact Or.inr ⟨h1, h2⟩
      · obtain ⟨rfl, rfl⟩ := List.cons.inj heq'
        exact absurd (by simpa [isEqualEdit] using hty' : isEqualEdit e0 = true)
          (by simpa using he)
    have hright : (p = l1.length ∧ q = l2.length) ∨
        (ctx + p ≤ l1.length ∧ ctx + q ≤ l2.length) := by
      cases hdw : (e0 :: rest).dropWhile (hunkPred ctx) with
      | nil =>
        rw [hdw] at htail
        exact Or.inl ⟨htail.1, htail.2⟩
      | cons t ts =>
        rw [hdw] at htail
        have hpt : hunkPred ctx t = false := dropWhile_head_false _ _ _ _ hdw
        have htmem : t ∈ e0 :: rest := by
          have : t ∈ (e0 :: rest).dropWhile (hunkPred ctx) := by
            rw [hdw]; exact List.mem_cons_self t ts
          exact (List.dropWhile_sublist (hunkPred ctx)).subset this
        have hgt := hgood t htmem
        have hteq : t.type = "equal" ∧ ctx * 2 ≤ t.end1 - t.start1 := by
          simp only [hunkPred, Bool.or_eq_false_iff, Bool.not_eq_false',
            decide_eq_false_iff_not, Nat.not_lt, beq_iff_eq] at hpt
          exact ⟨hpt.1, hpt.2⟩
        have hlen : t.end1 - t.start1 = t.end2 - t.start2 := by
          rcases hgt.2.2.2.2.2 with ⟨_, h, _⟩ | ⟨h, _⟩ | ⟨h, _⟩
          · exact h
          · rw [hteq.1] at h; exact absurd h (by decide)
          · rw [hteq.1] at h; exact absurd h (by decide)
        have ht1 : t.start1 = p := htail.1
        have ht2 : t.start2 = q := htail.2.1
        have hb1 := hgt.2.2.1
        have hb2 := hgt.2.2.2.1
        have hse1 := hgt.1
        have hse2 := hgt.2.1
        right
        constructor
        · have := hteq.2
          omega
        · have := hteq.2
          omega
    rw [heq] at hh
    rcases List.mem_append.mp hh with hh | hh
    · have hne : (createSingleHunk l1 l2 ((e0 :: rest).takeWhile (hunkPred ctx)) ctx).isEmpty =
          false := by
        rw [hgrp, createSingleHunk_cons]
        rfl
      rw [hne] at hh
      simp only [Bool.false_eq_true, if_false, List.mem_singleton] at hh
      subst hh
      rw [hgrp] at hgrpchain
      have hgood' : ∀ e ∈ e0 :: rest.takeWhile (hunkPred ctx), GoodEdit l1 l2 e := by
        intro e hx
        rw [← hgrp] at hx
        exact hgood e ((List.takeWhile_sublist (hunkPred ctx)).subset hx)
      obtain ⟨hcount1, hcount2⟩ := hunkBody_count l1 l2 ctx e0 (rest.takeWhile (hunkPred ctx))
        a b p q hgrpchain hgood' hleft hright
      refine ⟨e0.start1 - ctx + 1, e0.start2 - ctx + 1,
        hunkBody l1 l2 ctx e0 (rest.takeWhile (hunkPred ctx)), ?_⟩
      rw [hgrp, createSingleHunk_cons, hcount1, hcount2]
    · cases hdw : (e0 :: rest).dropWhile (hunkPred ctx) with
      | nil =>
        rw [hdw, createHunksFromEdits.eq_def] at hh
        simp at hh
      | cons t ts =>
        have hpt : hunkPred ctx t = false := dropWhile_head_false _ _ _ _ hdw
        have hteq : t.type = "equal" ∧ ctx * 2 ≤ t.end1 - t.start1 := by
          simp only [hunkPred, Bool.or_eq_false_iff, Bool.not_eq_false',
            decide_eq_false_iff_not, Nat.not_lt, beq_iff_eq] at hpt
          exact ⟨hpt.1, hpt.2⟩
        refine ih p q ?_ ?_ ?_ h ?_
        · exact htail
        · intro e hx
          exact hgood e ((List.dropWhile_sublist (hunkPred ctx)).subset hx)
        · right; right
          exact ⟨t, ts, hdw, hteq.1, hteq.2⟩
        · exact hh
  
/-! ## The DP table computes LCS lengths (spec step 1) -/

theorem take_succ_getD (l : List String) (i : Nat) (h : i < l.length) :
    l.take (i+1) = l.take i ++ [l.getD i ""] := by
  rw [List.take_succ, List.getElem?_eq_getElem h, List.getD_eq_getElem l "" h]
  rfl

theorem take_sublist_succ (l : List String) (n : Nat) :
    List.Sublist (l.take n) (l.take (n+1)) := by
  have h1 : min n (n+1) = n := by omega
  have := List.take_sublist n (l.take (n+1))
  rwa [List.take_take, h1] at this

theorem sublist_concat_cases {α : Type} (s t : List α) (x : α) (h : List.Sublist s (t ++ [x])) :
    List.Sublist s t ∨ ∃ u, s = u ++ [x] ∧ List.Sublist u t := by
  rcases List.sublist_append_iff.mp h with ⟨u, v, rfl, hu, hv⟩
  rcases List.sublist_singleton.mp hv with rfl | rfl
  · left; simpa using hu
  · right; exact ⟨u, rfl, hu⟩

/-- The DP table value is achieved by some common subsequence of the
prefixes. -/
theorem dp_lcs_exists (l1 l2 : List String) :
    ∀ i, i ≤ l1.length → ∀ j, j ≤ l2.length →
      ∃ s : List String, List.Sublist s (l1.take i) ∧ List.Sublist s (l2.take j) ∧
        s.length = dp l1 l2 i j := by
  intro i
  induction i with
  | zero =>
    intro _ j _
    exact ⟨[], by simp, by simp, by simp [dp_zero_left]⟩
  | succ i ih =>
    intro hi j
    induction j with
    | zero =>
      intro _
      exact ⟨[], by simp, by simp, by simp [dp_zero_right]⟩
    | succ j ihj =>
      intro hj
      rw [dp_succ_succ]
      by_cases hx : l1.getD i "" = l2.getD j ""
      · rw [if_pos hx]
        obtain ⟨s, hs1, hs2, hlen⟩ := ih (by omega) j (by omega)
        refine ⟨s ++ [l1.getD i ""], ?_, ?_, by simp [hlen]⟩
        · rw [take_succ_getD l1 i (by omega)]
          exact List.Sublist.append hs1 (List.Sublist.refl _)
        · rw [take_succ_getD l2 j (by omega), hx]
          exact List.Sublist.append hs2 (List.Sublist.refl _)
      · rw [if_neg hx]
        rcases Nat.le_total (dp l1 l2 i (j+1)) (dp l1 l2 (i+1) j) with hle | hle
        · obtain ⟨s, hs1, hs2, hlen⟩ := ihj (by omega)
          refine ⟨s, hs1, hs2.trans (take_sublist_succ l2 j), ?_⟩
          rw [Nat.max_eq_right hle]
          exact hlen
        · obtain ⟨s, hs1, hs2, hlen⟩ := ih (by omega) (j+1) (by omega)
          refine ⟨s, hs1.trans (take_sublist_succ l1 i), hs2, ?_⟩
          rw [Nat.max_eq_left hle]
          exact hlen

/-- The DP table value bounds the length of every common subsequence of
the prefixes. -/
theorem dp_lcs_ub (l1 l2 : List String) :
    ∀ i, i ≤ l1.length → ∀ j, j ≤ l2.length → ∀ s : List String,
      List.Sublist s (l1.take i) → List.Sublist s (l2.take j) →
        s.length ≤ dp l1 l2 i j := by
  intro i
  induction i with
  | zero =>
    intro _ j _ s hs1 _
    have : s = [] := List.sublist_nil.mp (by simpa using hs1)
    subst this
    simp
  | succ i ih =>
    intro hi j
    induction j with
    | zero =>
      intro _ s _ hs2
      have : s = [] := List.sublist_nil.mp (by simpa using hs2)
      subst this
      simp
    | succ j ihj =>
      intro hj s hs1 hs2
      rw [dp_succ_succ]
      rw [take_succ_getD l1 i (by omega)] at hs1
      rw [take_succ_getD l2 j (by omega)] at hs2
      by_cases hx : l1.getD i "" = l2.getD j ""
      · rw [if_pos hx]
        rcases sublist_concat_cases _ _ _ hs1 with hA | ⟨u1, rfl, hu1⟩
        · rcases sublist_concat_cases _ _ _ hs2 with hB | ⟨u2, hs, hu2⟩
          · exact Nat.le_succ_of_le (ih (by omega) j (by omega) s hA hB)
          · have hu2' : List.Sublist u2 (l1.take i) :=
              (List.sublist_append_left u2 _).trans (hs ▸ hA)
            have := ih (by omega) j (by omega) u2 hu2' hu2
            rw [hs]
            simp only [List.length_append, List.length_singleton]
            omega
        · rcases sublist_concat_cases _ _ _ hs2 with hB | ⟨u2, hs2', hu2⟩
          · have hu1' : List.Sublist u1 (l2.take j) :=
              (List.sublist_append_left u1 _).trans hB
            have := ih (by omega) j (by omega) u1 hu1 hu1'
            simp only [List.length_append, List.length_singleton]
            omega
          · have hlen12 : u1.length = u2.length := by
              have := congrArg List.length hs2'
              simpa using this
            obtain ⟨rfl, -⟩ := List.append_inj hs2' hlen12
            have := ih (by omega) j (by omega) u1 hu1 hu2
            simp only [List.length_append, List.length_singleton]
            omega
      · rw [if_neg hx]
        rcases sublist_concat_cases _ _ _ hs1 with hA | ⟨u1, rfl, hu1⟩
        · have hs2' : List.Sublist s (l2.take (j+1)) := by
            rw [take_succ_getD l2 j (by omega)]
            exact hs2
          have := ih (by omega) (j+1) (by omega) s hA hs2'
          omega
        · rcases sublist_concat_cases _ _ _ hs2 with hB | ⟨u2, hs2', hu2⟩
          · have hs1' : List.Sublist (u1 ++ [l1.getD i ""]) (l1.take (i+1)) := by
              rw [take_succ_getD l1 i (by omega)]
              exact List.Sublist.append hu1 (List.Sublist.refl _)
            have := ihj (by omega) (u1 ++ [l1.getD i ""]) hs1' hB
            omega
          · exfalso
            have hlen12 : u1.length = u2.length := by
              have := congrArg List.length hs2'
              simpa using this
            obtain ⟨-, hxy⟩ := List.append_inj hs2' hlen12
            apply hx
            simpa using hxy

/-- Total number of sequence-1 lines covered by Delete operations. -/
def deleteTotal (edits : List Edit) : Nat :=
  ((edits.filter fun e => e.type == "delete").map fun e => e.end1 - e.start1).sum

/-- Total number of sequence-2 lines covered by Insert operations. -/
def insertTotal (edits : List Edit) : Nat :=
  ((edits.filter fun e => e.type == "insert").map fun e => e.end2 - e.start2).sum

/-! ## Identity inputs and hunk grouping boundaries -/

theorem createHunks_nil (l1 l2 : List String) (ctx : Nat) :
    createHunksFromEdits l1 l2 [] ctx = [] := by
  rw [createHunksFromEdits.eq_def]

theorem createHunks_cons_equal (l1 l2 : List String) (ctx : Nat) (e : Edit) (es : List Edit)
    (he : isEqualEdit e = true) :
    createHunksFromEdits l1 l2 (e :: es) ctx = createHunksFromEdits l1 l2 es ctx := by
  rw [createHunksFromEdits.eq_def]
  simp [he]

theorem createHunks_cons_change (l1 l2 : List String) (ctx : Nat) (e : Edit) (es : List Edit)
    (he : isEqualEdit e = false) :
    createHunksFromEdits l1 l2 (e :: es) ctx =
      (if (createSingleHunk l1 l2 ((e :: es).takeWhile (hunkPred ctx)) ctx).isEmpty then []
        else [createSingleHunk l1 l2 ((e :: es).takeWhile (hunkPred ctx)) ctx]) ++
      createHunksFromEdits l1 l2 ((e :: es).dropWhile (hunkPred ctx)) ctx := by
  rw [createHunksFromEdits.eq_def]
  simp [he]

theorem matchRun_self (l : List String) : ∀ i, matchRun l l i i = i := by
  intro i
  induction i with
  | zero => simp [matchRun]
  | succ n ih => simp [matchRun, ih]

/-- On identical inputs, `computeDiff` returns a single Equal edit
covering everything (for non-empty input). -/
theorem computeDiff_self (l : List String) (h : l ≠ []) :
    computeDiff l l = [⟨"equal", 0, l.length, 0, l.length⟩] := by
  have hn : 0 < l.length := List.length_pos.mpr h
  unfold computeDiff
  rw [backtrack.eq_def]
  have h0 : ¬(l.length = 0 ∧ l.length = 0) := by omega
  rw [dif_neg h0]
  have h1 : 0 < l.length ∧ 0 < l.length ∧
      l.getD (l.length - 1) "" = l.getD (l.length - 1) "" := ⟨hn, hn, rfl⟩
  rw [dif_pos h1]
  rw [matchRun_self]
  simp only [Nat.sub_self]
  rw [backtrack.eq_def]
  simp

theorem computeDiff_nil_nil : computeDiff [] [] = [] := by
  unfold computeDiff
  rw [backtrack.eq_def]
  simp

theorem hunkPred_of_ne (ctx : Nat) (e : Edit) (h : e.type ≠ "equal") :
    hunkPred ctx e = true := by
  simp only [hunkPred, Bool.or_eq_true, Bool.not_eq_true']
  exact Or.inl (by simpa using h)

theorem takeWhile_append_all {α : Type} (p : α → Bool) :
    ∀ (xs ys : List α), (∀ x ∈ xs, p x = true) →
      (xs ++ ys).takeWhile p = xs ++ ys.takeWhile p := by
  intro xs
  induction xs with
  | nil => intro ys _; rfl
  | cons a l ih =>
    intro ys h
    rw [List.cons_append, List.takeWhile_cons, if_pos (h a (List.mem_cons_self a l)),
      ih ys (fun x hx => h x (List.mem_cons_of_mem a hx))]
    rfl

theorem dropWhile_append_all {α : Type} (p : α → Bool) :
    ∀ (xs ys : List α), (∀ x ∈ xs, p x = true) →
      (xs ++ ys).dropWhile p = ys.dropWhile p := by
  intro xs
  induction xs with
  | nil => intro ys _; rfl
  | cons a l ih =>
    intro ys h
    rw [List.cons_append, List.dropWhile_cons, if_pos (h a (List.mem_cons_self a l)),
      ih ys (fun x hx => h x (List.mem_cons_of_mem a hx))]

theorem takeWhile_all {α : Type} (p : α → Bool) (xs : List α) (h : ∀ x ∈ xs, p x = true) :
    xs.takeWhile p = xs := by
  have := takeWhile_append_all p xs [] h
  simpa using this

theorem dropWhile_all {α : Type} (p : α → Bool) (xs : List α) (h : ∀ x ∈ xs, p x = true) :
    xs.dropWhile p = [] := by
  have := dropWhile_append_all p xs [] h
  simpa using this

/-- A maximal run of non-Equal edits produces exactly one hunk. -/
theorem createHunks_one_group (l1 l2 : List String) (ctx : Nat) (e : Edit) (es : List Edit)
    (hne : ∀ x ∈ e :: es, x.type ≠ "equal") :
    createHunksFromEdits l1 l2 (e :: es) ctx = [createSingleHunk l1 l2 (e :: es) ctx] := by
  have he : isEqualEdit e = false := by
    simpa [isEqualEdit] using hne e (List.mem_cons_self e es)
  rw [createHunks_cons_change l1 l2 ctx e es he]
  rw [takeWhile_all (hunkPred ctx) (e :: es) (fun x hx => hunkPred_of_ne ctx x (hne x hx))]
  rw [dropWhile_all (hunkPred ctx) (e :: es) (fun x hx => hunkPred_of_ne ctx x (hne x hx))]
  rw [createHunks_nil]
  rw [createSingleHunk_cons]
  simp

/-- Firm-boundary grouping rule of `createHunksFromEdits`: two change
regions separated by a single Equal run are merged into one hunk
exactly when the run is shorter than `2 × context`, and split into two
hunks when the run length is at least `2 × context`. -/
theorem createHunks_boundary (l1 l2 : List String) (ctx : Nat) (g1 g2 : List Edit) (q : Edit)
    (hg1 : g1 ≠ []) (hg2 : g2 ≠ []) (hne1 : ∀ e ∈ g1, e.type ≠ "equal")
    (hne2 : ∀ e ∈ g2, e.type ≠ "equal") (hq : q.type = "equal") :
    (createHunksFromEdits l1 l2 (g1 ++ q :: g2) ctx).length =
      if q.end1 - q.start1 < ctx * 2 then 1 else 2 := by
  obtain ⟨e, g1', rfl⟩ := List.exists_cons_of_ne_nil hg1
  obtain ⟨f, g2', rfl⟩ := List.exists_cons_of_ne_nil hg2
  have he : isEqualEdit e = false := by
    simpa [isEqualEdit] using hne1 e (List.mem_cons_self e g1')
  have hq' : isEqualEdit q = true := by simpa [isEqualEdit] using hq
  have hall1 : ∀ x ∈ e :: g1', hunkPred ctx x = true :=
    fun x hx => hunkPred_of_ne ctx x (hne1 x hx)
  have hall2 : ∀ x ∈ f :: g2', hunkPred ctx x = true :=
    fun x hx => hunkPred_of_ne ctx x (hne2 x hx)
  have hpq : hunkPred ctx q = decide (q.end1 - q.start1 < ctx * 2) := by
    simp [hunkPred, hq]
  rw [show (e :: g1') ++ q :: (f :: g2') = e :: (g1' ++ q :: (f :: g2')) from rfl]
  rw [createHunks_cons_change l1 l2 ctx e _ he]
  rw [show e :: (g1' ++ q :: (f :: g2')) = (e :: g1') ++ q :: (f :: g2') from rfl]
  rw [takeWhile_append_all (hunkPred ctx) (e :: g1') (q :: (f :: g2')) hall1]
  rw [dropWhile_append_all (hunkPred ctx) (e :: g1') (q :: (f :: g2')) hall1]
  rw [List.takeWhile_cons, List.dropWhile_cons, hpq]
  by_cases hshort : q.end1 - q.start1 < ctx * 2
  · rw [if_pos hshort]
    simp only [decide_eq_true_eq, if_pos hshort]
    rw [takeWhile_all (hunkPred ctx) (f :: g2') hall2]
    rw [dropWhile_all (hunkPred ctx) (f :: g2') hall2]
    rw [createHunks_nil]
    have : (e :: g1') ++ q :: (f :: g2') = e :: (g1' ++ q :: (f :: g2')) := rfl
    rw [this, createSingleHunk_cons]
    simp
  · rw [if_neg hshort]
    simp only [decide_eq_true_eq, if_neg hshort]
    rw [createHunks_cons_equal l1 l2 ctx q (f :: g2') hq']
    rw [createHunks_one_group l1 l2 ctx f g2' hne2]
    simp [createSingleHunk_cons l1 l2 ctx e g1', createSingleHunk_cons l1 l2 ctx f g2']

/-! ## Concrete evaluations shared by claim instances -/

theorem computeDiff_abc_axc :
    computeDiff ["a","b","c"] ["a","x","c"] =
      [⟨"equal", 0, 1, 0, 1⟩, ⟨"insert", 1, 1, 1, 2⟩,
       ⟨"delete", 1, 2, 2, 2⟩, ⟨"equal", 2, 3, 2, 3⟩] := by
  rw [computeDiff_eval]
  decide

theorem hunks_abc_axc :
    createHunksFromEdits ["a","b","c"] ["a","x","c"]
        (computeDiff ["a","b","c"] ["a","x","c"]) 1 =
      [["@@ -1,3 +1,3 @@", " a", "+x", "-b", " c"]] := by
  rw [computeDiff_abc_axc, createHunksFromEdits_eval]
  decide

theorem computeDiff_nil_ab :
    computeDiff [] ["a","b"] = [⟨"insert", 0, 0, 0, 2⟩] := by
  rw [computeDiff_eval]
  decide

/-! ## Claim theorems -/

/-- C1: for every pair of finite line sequences, `computeDiff`
terminates (it is a total Lean function, with termination measure
`i + j` on the backtracking loop) and concatenating in list order the
sequence-1 ranges of all Equal and Delete operations reconstructs the
first sequence exactly, while concatenating the sequence-2 ranges of
all Equal and Insert operations reconstructs the second sequence
exactly. -/
theorem C1_totality_reconstruction (l1 l2 : List String) :
    recon1 l1 (computeDiff l1 l2) = l1 ∧ recon2 l2 (computeDiff l1 l2) = l2 := by
  have h := backtrack_recon l1 l2 l1.length l2.length
  unfold computeDiff
  constructor
  · rw [h.1, List.take_length]
  · rw [h.2, List.take_length]

/-- C2 counterexample: on A = ["a","b"], B = ["a"], the backtrack's
Delete run extends through the matching line "a" (the inner loop only
re-checks the DP tie condition, not the diagonal match), so the lines
covered by Delete operations number 2, not n - L = 2 - 1 = 1.  The
claim's consequence "Delete covers n - L lines" is therefore false. -/
theorem C2_counterexample :
    deleteTotal (computeDiff ["a","b"] ["a"]) ≠
      (["a","b"] : List String).length -
        dp ["a","b"] ["a"] (["a","b"] : List String).length (["a"] : List String).length := by
  rw [computeDiff_eval]
  decide

/-- C2 (amended): the dp table satisfies dp[i][j] = length of the
longest common subsequence of seq1[0:i] and seq2[0:j] for all
0 ≤ i ≤ n, 0 ≤ j ≤ m (some common subsequence of the prefixes attains
dp[i][j], and every common subsequence is bounded by it); however the
backtracking phase does not always realize this optimum: the total
number of lines covered by Delete (resp. Insert) operations can exceed
n - L (resp. m - L), as the counterexample A=["a","b"], B=["a"]
shows. -/
theorem C2_dp_is_lcs (l1 l2 : List String) (i j : Nat)
    (hi : i ≤ l1.length) (hj : j ≤ l2.length) :
    (∃ s : List String, List.Sublist s (l1.take i) ∧ List.Sublist s (l2.take j) ∧
      s.length = dp l1 l2 i j) ∧
    (∀ s : List String, List.Sublist s (l1.take i) → List.Sublist s (l2.take j) →
      s.length ≤ dp l1 l2 i j) :=
  ⟨dp_lcs_exists l1 l2 i hi j hj, fun s => dp_lcs_ub l1 l2 i hi j hj s⟩

theorem C2_dp_is_lcs_witness :
    ((3 ≤ (["a","b","c"] : List String).length ∧ 3 ≤ (["a","x","c"] : List String).length) ∧
      ((∃ s : List String, List.Sublist s ((["a","b","c"] : List String).take 3) ∧
          List.Sublist s ((["a","x","c"] : List String).take 3) ∧
          s.length = dp ["a","b","c"] ["a","x","c"] 3 3) ∧
        (∀ s : List String, List.Sublist s ((["a","b","c"] : List String).take 3) →
          List.Sublist s ((["a","x","c"] : List String).take 3) →
          s.length ≤ dp ["a","b","c"] ["a","x","c"] 3 3))) :=
  ⟨⟨by decide, by decide⟩,
    C2_dp_is_lcs ["a","b","c"] ["a","x","c"] 3 3 (by decide) (by decide)⟩

/-- C3 counterexample: for A=["a","b","c"], B=["a","x","c"], context=1
the produced hunk is not the claimed
`["@@ -1,3 +1,3 @@", " a", "-b", "+x", " c"]`: the backtracking loop
prepends the Delete before prepending the Insert, so the Insert
precedes the Delete in the final edit list and the rendered body shows
"+x" before "-b". -/
theorem C3_counterexample :
    createHunksFromEdits ["a","b","c"] ["a","x","c"]
        (computeDiff ["a","b","c"] ["a","x","c"]) 1 ≠
      [["@@ -1,3 +1,3 @@", " a", "-b", "+x", " c"]] := by
  rw [hunks_abc_axc]
  decide

/-- C3 (amended): for A=["a","b","c"], B=["a","x","c"], context=1 the
hunk assembler applied to `computeDiff`'s output produces exactly one
hunk with header "@@ -1,3 +1,3 @@" and body, in order,
" a", "+x", "-b", " c" (the insertion precedes the deletion). -/
theorem C3_hunk_scenario :
    createHunksFromEdits ["a","b","c"] ["a","x","c"]
        (computeDiff ["a","b","c"] ["a","x","c"]) 1 =
      [["@@ -1,3 +1,3 @@", " a", "+x", "-b", " c"]] :=
  hunks_abc_axc

/-- C4: for every hunk produced by the hunk assembler on
`computeDiff`'s output (any context), the header's len1 equals the
number of space-prefixed plus minus-prefixed body lines, and len2
equals the number of space-prefixed plus plus-prefixed body lines. -/
theorem C4_header_arithmetic (l1 l2 : List String) (ctx : Nat) (h : List String)
    (hmem : h ∈ createHunksFromEdits l1 l2 (computeDiff l1 l2) ctx) :
    ∃ s1 s2 body,
      h = mkHunkHeader s1 (body.countP side1Line) s2 (body.countP side2Line) :: body := by
  obtain ⟨hchain, hgood⟩ := computeDiff_good l1 l2
  exact hunk_mem_header l1 l2 (computeDiff l1 l2) ctx 0 0 hchain hgood (Or.inl rfl) h hmem

theorem C4_header_arithmetic_witness :
    (["@@ -1,3 +1,3 @@", " a", "+x", "-b", " c"] ∈
      createHunksFromEdits ["a","b","c"] ["a","x","c"]
        (computeDiff ["a","b","c"] ["a","x","c"]) 1) ∧
    ∃ s1 s2 body,
      ["@@ -1,3 +1,3 @@", " a", "+x", "-b", " c"] =
        mkHunkHeader s1 (body.countP side1Line) s2 (body.countP side2Line) :: body :=
  ⟨by rw [hunks_abc_axc]; decide,
    C4_header_arithmetic ["a","b","c"] ["a","x","c"] 1 _ (by rw [hunks_abc_axc]; decide)⟩

/-- C5 counterexample: on A=["a"], B=["b"] the edit list is an Insert
followed by a Delete (the backtrack prepends the Delete first), and
both have Start1 = 0, so start indices are not strictly increasing on
side 1. -/
theorem C5_counterexample :
    computeDiff ["a"] ["b"] = [⟨"insert", 0, 0, 0, 1⟩, ⟨"delete", 0, 1, 1, 1⟩] ∧
    ¬ List.Pairwise (fun p q : Edit => p.start1 < q.start1) (computeDiff ["a"] ["b"]) := by
  constructor
  · rw [computeDiff_eval]; decide
  · rw [computeDiff_eval]; decide

/-- C5 (amended): the edit list of `computeDiff` is well-formed: Equal
operations have ranges of equal length with pointwise equal content,
Delete consumes only sequence 1, Insert only sequence 2, the ranges
form a contiguous non-overlapping chain per side from (0,0) to (n,m),
and start indices are non-decreasing per side with the combined
start1+start2 strictly increasing (strict per-side increase fails, as
the counterexample shows, because an Insert and the following edit
share Start1, and a Delete and the following edit share Start2). -/
theorem C5_wellformed (l1 l2 : List String) :
    Chain 0 0 (computeDiff l1 l2) l1.length l2.length ∧
    (∀ e ∈ computeDiff l1 l2, GoodEdit l1 l2 e) ∧
    List.Pairwise (fun p q : Edit => p.start1 ≤ q.start1 ∧ p.start2 ≤ q.start2 ∧
      p.start1 + p.start2 < q.start1 + q.start2) (computeDiff l1 l2) := by
  obtain ⟨hc, hg⟩ := computeDiff_good l1 l2
  exact ⟨hc, hg, chain_pairwise _ 0 0 _ _ hc
    (fun e he => ⟨(hg e he).1, (hg e he).2.1, (hg e he).2.2.2.2.1⟩)⟩

/-- C6 counterexample: for A=[], B=["a","b"] (shown at the default
context 3) the hunk header is "@@ -1,0 +1,2 @@", not the claimed
"@@ -0,0 +1,2 @@": `createSingleHunk` always prints
`contextStart1+1`, even when side 1 is empty. -/
theorem C6_counterexample :
    createHunksFromEdits [] ["a","b"] (computeDiff [] ["a","b"]) 3 =
      [["@@ -1,0 +1,2 @@", "+a", "+b"]] ∧
    ("@@ -1,0 +1,2 @@" : String) ≠ "@@ -0,0 +1,2 @@" := by
  constructor
  · rw [computeDiff_nil_ab, createHunksFromEdits_eval]
    decide
  · decide

/-- C6 (amended): for A=[], B=["a","b"] and every context, the hunk
assembler produces exactly one hunk whose body lines are all prefixed
with '+' and whose header line is "@@ -1,0 +1,2 @@" (the empty side-1
range is still rendered with 1-based start 1, not 0). -/
theorem C6_insert_only (ctx : Nat) :
    createHunksFromEdits [] ["a","b"] (computeDiff [] ["a","b"]) ctx =
      [["@@ -1,0 +1,2 @@", "+a", "+b"]] := by
  rw [computeDiff_nil_ab]
  rw [createHunks_one_group [] ["a","b"] ctx ⟨"insert", 0, 0, 0, 2⟩ []
    (by intro x hx; rw [List.mem_singleton.mp hx]; decide)]
  rw [createSingleHunk_cons]
  unfold hunkBody
  simp only [List.getLastD_cons, List.getLastD_nil]
  simp only [List.length_nil, List.length_cons, Nat.zero_sub, Nat.sub_self]
  have e2 : (0:Nat) ⊓ (0 + ctx) - 0 = 0 := by omega
  have e3 : (0 + 1 + 1 : Nat) ⊓ (2 + ctx) - 0 = 2 := by omega
  rw [e2, e3]
  decide

/-- C7: the backtracking tie-break is fixed and deterministic: when no
diagonal match is available at (i,j), i > 0, and
dp[i-1][j] = dp[i][j-1], the backtracking loop takes the Delete branch,
emitting a Delete operation ending at i (never an Insert) at that
position. -/
theorem C7_tie_break (l1 l2 : List String) (i j : Nat) (hi : 0 < i)
    (hnm : ¬(0 < j ∧ l1.getD (i-1) "" = l2.getD (j-1) ""))
    (htie : dp l1 l2 (i-1) j = dp l1 l2 i (j-1)) :
    ∃ i', i' < i ∧
      backtrack l1 l2 i j = backtrack l1 l2 i' j ++ [⟨"delete", i', i, j, j⟩] := by
  have h0 : ¬(i = 0 ∧ j = 0) := by omega
  have h1 : ¬(0 < i ∧ 0 < j ∧ l1.getD (i-1) "" = l2.getD (j-1) "") :=
    fun hc => hnm ⟨hc.2.1, hc.2.2⟩
  have h2 : 0 < i ∧ (j = 0 ∨ dp l1 l2 (i-1) j ≥ dp l1 l2 i (j-1)) :=
    ⟨hi, Or.inr (Nat.le_of_eq htie.symm)⟩
  refine ⟨delRun l1 l2 j i, delRun_lt l1 l2 i j hi h2.2, ?_⟩
  rw [backtrack.eq_def, dif_neg h0, dif_neg h1, dif_pos h2]

theorem C7_tie_break_witness :
    ((0 < 1 ∧
      ¬(0 < 1 ∧ (["a"] : List String).getD 0 "" = (["b"] : List String).getD 0 "") ∧
      dp ["a"] ["b"] 0 1 = dp ["a"] ["b"] 1 0) ∧
    ∃ i', i' < 1 ∧
      backtrack ["a"] ["b"] 1 1 =
        backtrack ["a"] ["b"] i' 1 ++ [⟨"delete", i', 1, 1, 1⟩]) :=
  ⟨⟨by decide, by decide, by decide⟩,
    C7_tie_break ["a"] ["b"] 1 1 (by decide) (by decide) (by decide)⟩

/-- C8: for every non-empty sequence A, `computeDiff A A` yields exactly
one Equal operation spanning all of A on both sides, and the hunk
assembler on that edit list yields zero hunks for every context. -/
theorem C8_identity (A : List String) (h : A ≠ []) :
    computeDiff A A = [⟨"equal", 0, A.length, 0, A.length⟩] ∧
    ∀ ctx : Nat, createHunksFromEdits A A (computeDiff A A) ctx = [] := by
  refine ⟨computeDiff_self A h, fun ctx => ?_⟩
  rw [computeDiff_self A h,
    createHunks_cons_equal A A ctx ⟨"equal", 0, A.length, 0, A.length⟩ [] rfl,
    createHunks_nil]

theorem C8_identity_witness :
    (["a","b"] : List String) ≠ [] ∧
    computeDiff ["a","b"] ["a","b"] = [⟨"equal", 0, 2, 0, 2⟩] ∧
    createHunksFromEdits ["a","b"] ["a","b"] (computeDiff ["a","b"] ["a","b"]) 3 = [] :=
  ⟨by decide, (C8_identity ["a","b"] (by decide)).1,
    (C8_identity ["a","b"] (by decide)).2 3⟩

/-- C9: the 2×context firm-boundary rule: a hunk starts at the first
non-Equal operation and absorbs subsequent operations; two change
regions separated by a single Equal run are kept in one hunk exactly
when the run is shorter than 2×context, and split into two hunks when
its length is at least 2×context. -/
theorem C9_firm_boundary (l1 l2 : List String) (ctx : Nat) (g1 g2 : List Edit) (q : Edit)
    (hg1 : g1 ≠ []) (hg2 : g2 ≠ []) (hne1 : ∀ e ∈ g1, e.type ≠ "equal")
    (hne2 : ∀ e ∈ g2, e.type ≠ "equal") (hq : q.type = "equal") :
    (createHunksFromEdits l1 l2 (g1 ++ q :: g2) ctx).length =
      if q.end1 - q.start1 < ctx * 2 then 1 else 2 :=
  createHunks_boundary l1 l2 ctx g1 g2 q hg1 hg2 hne1 hne2 hq

theorem C9_firm_boundary_witness :
    (computeDiff
        (["p"] ++ (List.range 10).map (fun n => "e" ++ toString n) ++ ["q"])
        (["P"] ++ (List.range 10).map (fun n => "e" ++ toString n) ++ ["Q"]) =
      [⟨"insert", 0, 0, 0, 1⟩, ⟨"delete", 0, 1, 1, 1⟩] ++ ⟨"equal", 1, 11, 1, 11⟩ ::
        [⟨"insert", 11, 11, 11, 12⟩, ⟨"delete", 11, 12, 12, 12⟩]) ∧
    (([⟨"insert", 0, 0, 0, 1⟩, ⟨"delete", 0, 1, 1, 1⟩] : List Edit) ≠ [] ∧
      ([⟨"insert", 11, 11, 11, 12⟩, ⟨"delete", 11, 12, 12, 12⟩] : List Edit) ≠ [] ∧
      (⟨"equal", 1, 11, 1, 11⟩ : Edit).type = "equal") ∧
    (createHunksFromEdits
        (["p"] ++ (List.range 10).map (fun n => "e" ++ toString n) ++ ["q"])
        (["P"] ++ (List.range 10).map (fun n => "e" ++ toString n) ++ ["Q"])
        ([⟨"insert", 0, 0, 0, 1⟩, ⟨"delete", 0, 1, 1, 1⟩] ++ ⟨"equal", 1, 11, 1, 11⟩ ::
          [⟨"insert", 11, 11, 11, 12⟩, ⟨"delete", 11, 12, 12, 12⟩]) 2).length = 2 := by
  refine ⟨by rw [computeDiff_eval]; decide, ⟨by decide, by decide, by decide⟩, ?_⟩
  have h := C9_firm_boundary
    (["p"] ++ (List.range 10).map (fun n => "e" ++ toString n) ++ ["q"])
    (["P"] ++ (List.range 10).map (fun n => "e" ++ toString n) ++ ["Q"]) 2
    [⟨"insert", 0, 0, 0, 1⟩, ⟨"delete", 0, 1, 1, 1⟩]
    [⟨"insert", 11, 11, 11, 12⟩, ⟨"delete", 11, 12, 12, 12⟩]
    ⟨"equal", 1, 11, 1, 11⟩ (by decide) (by decide)
    (by intro e he; fin_cases he <;> decide)
    (by intro e he; fin_cases he <;> decide) (by decide)
  simpa using h

/-- C10: `generateUnifiedDiff` always returns a list beginning with the
two file-header lines, so its result is never empty (hence the
`len(diff) > 0` check in `compareFiles` always passes), and when the
two line sequences are identical the result is exactly the two header
lines with zero hunks. -/
theorem C10_headers (f1 f2 : String) (l1 l2 : List String) (ctx : Nat) :
    generateUnifiedDiff f1 f2 l1 l2 ctx ≠ [] ∧
    (generateUnifiedDiff f1 f2 l1 l2 ctx).take 2 = ["--- " ++ f1, "+++ " ++ f2] ∧
    (l1 = l2 → generateUnifiedDiff f1 f2 l1 l2 ctx = ["--- " ++ f1, "+++ " ++ f2]) := by
  refine ⟨by simp [generateUnifiedDiff], rfl, ?_⟩
  intro h
  subst h
  unfold generateUnifiedDiff generateHunks
  by_cases hl : l1 = []
  · subst hl
    rw [computeDiff_nil_nil, createHunks_nil]
    rfl
  · rw [computeDiff_self l1 hl,
      createHunks_cons_equal l1 l1 ctx ⟨"equal", 0, l1.length, 0, l1.length⟩ [] rfl,
      createHunks_nil]
    rfl

theorem C10_headers_witness :
    generateUnifiedDiff "f1" "f2" ["a"] ["a"] 3 ≠ [] ∧
    generateUnifiedDiff "f1" "f2" ["a"] ["a"] 3 = ["--- " ++ "f1", "+++ " ++ "f2"] :=
  ⟨(C10_headers "f1" "f2" ["a"] ["a"] 3).1,
    (C10_headers "f1" "f2" ["a"] ["a"] 3).2.2 rfl⟩

end Ddiff
